import Mathlib

/-!
Shallow embedding of `getAvailability`
(src/packages/features/bookings/lib/getBookingFields.ts, lines 246-310).

Modelling conventions:

* Instants (JS `Date` values and dayjs objects) are integers: milliseconds
  since the Unix epoch.
* The time library (dayjs with the utc/timezone plugins) is outside the
  repository; the spec treats it as a trusted collaborator that resolves the
  UTC offset of the requested zone.  A timezone is therefore modelled by its
  UTC offset `tzOff` in minutes (east of UTC positive), constant over the
  range of a call.  Under this model:
  - `dayjs.utc("YYYY-MM-DD")` is the day-aligned instant of that UTC date;
  - `d.tz(zone, true)` (keepLocalTime) maps a UTC instant `u` to the instant
    `u - tzOff` minutes, whose displayed wall clock in the zone is `u`;
  - `dayjs.tz(dateValue, zone)` keeps the instant `dateValue` and displays it
    with the zone offset, so its displayed wall clock is
    `dateValue + tzOff` minutes;
  - `.add(n, "minutes")` shifts the instant by `n` minutes;
  - `.hour(h)` / `.minute(m)` replace the hour / minute component of the
    displayed wall clock, leaving all other components (day, seconds,
    milliseconds) unchanged;
  - `.day()` and `.format("YYYY-MM-DD")` read the displayed wall clock; the
    formatted date string is represented by its epoch day number.
* JS objects keyed by date strings are association lists with unique keys in
  key-insertion order; `dates[k] = dates[k] ?? []; dates[k].push(v)` appends
  to the existing key or inserts the key at the end; `{...a, ...b}` keeps
  `a`'s key order with `b`'s values winning and appends `b`'s new keys in
  order; `Object.values` reads the values in that key order (the
  `YYYY-MM-DD` keys are not array-index-like, so insertion order applies).
-/

namespace CalAvail

abbrev minuteMs : Int := 60000

abbrev hourMs : Int := 3600000

abbrev dayMs : Int := 86400000

/-- `Date.prototype.getUTCHours` of an instant (ms since epoch). -/
def clockHour (t : Int) : Int := t % dayMs / hourMs

/-- `Date.prototype.getUTCMinutes` of an instant (ms since epoch). -/
def clockMinute (t : Int) : Int := t % hourMs / minuteMs

/-- Wall clock displayed by a dayjs object holding instant `t` in a zone with
UTC offset `tzOff` minutes. -/
def localClock (tzOff t : Int) : Int := t + tzOff * minuteMs

/-- Calendar date of a wall-clock value as an epoch day number
(`format("YYYY-MM-DD")`). -/
def clockDay (c : Int) : Int := c / dayMs

/-- Day of week, Sunday = 0, of an epoch day number (dayjs `.day()` of the
displayed clock); 1970-01-01 (day 0) was a Thursday. -/
def weekdayOf (dayNum : Int) : Int := (dayNum + 4) % 7

/-- dayjs `.hour(h)`: replace the hour component of a wall clock `c`. -/
def setClockHour (c h : Int) : Int := c - clockHour c * hourMs + h * hourMs

/-- dayjs `.minute(m)`: replace the minute component of a wall clock `c`. -/
def setClockMinute (c m : Int) : Int := c - clockMinute c * minuteMs + m * minuteMs

/-- Epoch day number of a civil date (proleptic Gregorian), so that concrete
dates such as 2024-01-01 can be named; standard days-from-civil algorithm. -/
def daysFromCivil (y m d : Int) : Int :=
  let y₁ := if m ≤ 2 then y - 1 else y
  let era := (if 0 ≤ y₁ then y₁ else y₁ - 399) / 400
  let yoe := y₁ - era * 400
  let doy := (153 * (m + (if 2 < m then -3 else 9)) + 2) / 5 + d - 1
  let doe := yoe * 365 + yoe / 4 - yoe / 100 + doy
  era * 146097 + doe - 719468

/-- One element of the `availability` array.  `startTime` and `endTime` are
JS `Date` values (ms since epoch; the code only ever reads their UTC hour and
minute), `date` is `Date | null`, and `days` may be `undefined` at runtime
(the code guards with `typeof value.days !== "undefined"` and `days?.`). -/
structure AvailabilityBlock where
  startTime : Int
  endTime : Int
  date : Option Int
  days : Option (List Int)
deriving DecidableEq

/-- A produced interval `{ start, end }`; both are instants displayed in the
requested zone (the ambient `tzOff` of the call). -/
structure Interval where
  start : Int
  «end» : Int
deriving DecidableEq

/-- The day-keyed record `Record<string, { start; end }[]>`, as an
association list in key-insertion order. -/
abbrev IntervalMap := List (Int × List Interval)

/-- `dates[k] = dates[k] ?? []; dates[k].push(i)`: append to the key if
present, otherwise insert the key at the end. -/
def pushAt : IntervalMap → Int → Interval → IntervalMap
  | [], k, i => [(k, [i])]
  | p :: rest, k, i =>
    if p.1 = k then (p.1, p.2 ++ [i]) :: rest else p :: pushAt rest k i

/-- Property lookup `dates[k]`. -/
def lookupKey : IntervalMap → Int → Option (List Interval)
  | [], _ => none
  | p :: rest, k => if p.1 = k then some p.2 else lookupKey rest k

/-- `Object.keys`, in insertion order. -/
def keysOf (m : IntervalMap) : List Int := m.map Prod.fst

/-- The object spread `{...a, ...b}`: `a`'s keys in order with `b`'s values
winning, then `b`'s keys not present in `a`, in order. -/
def mergeRecords (a b : IntervalMap) : IntervalMap :=
  a.map (fun p => (p.1, (lookupKey b p.1).getD p.2)) ++
    b.filter (fun p => (lookupKey a p.1).isNone)

/-- `Object.values(m).flat()`. -/
def flattenRecord (m : IntervalMap) : List Interval := (m.map Prod.snd).flatten

/-- Number of iterations of the day-walk
`for (let date = dayjs.utc(dateFrom.toISOString().substring(0, 10));
      date.isBefore(dayjs.utc(dateTo.toISOString())); date = date.add(1, "day"))`:
the count of day steps from `dateFrom` truncated to its UTC calendar day that
are strictly before `dateTo`. -/
def walkCount (dateFrom dateTo : Int) : Nat :=
  ((dateTo - dayMs * (dateFrom / dayMs) + (dayMs - 1)) / dayMs).toNat

/-- The successive values of the loop variable `date` of the day-walk. -/
def walkedDays (dateFrom dateTo : Int) : List Int :=
  (List.range (walkCount dateFrom dateTo)).map
    (fun i : Nat => dayMs * (dateFrom / dayMs) + dayMs * (i : Int))

/-- The instant `startDate` of the recurring expansion for the walked day `u`:
`date.tz(timeZone, true).add(startTime.getUTCHours() * 60 +
startTime.getUTCMinutes(), "minutes")`. -/
def recStart (tzOff : Int) (block : AvailabilityBlock) (u : Int) : Int :=
  u - tzOff * minuteMs +
    (clockHour block.startTime * 60 + clockMinute block.startTime) * minuteMs

/-- The instant of the `end` of the recurring expansion for walked day `u`:
`date.tz(timeZone, true).add(endTime.getUTCHours() * 60 +
endTime.getUTCMinutes(), "minutes")`. -/
def recEnd (tzOff : Int) (block : AvailabilityBlock) (u : Int) : Int :=
  u - tzOff * minuteMs +
    (clockHour block.endTime * 60 + clockMinute block.endTime) * minuteMs

/-- One iteration of the day-walk body for a recurring `block`: compute
`startDate`, test `block.days?.includes(startDate.day())`, and on success push
the interval under `startDate.format("YYYY-MM-DD")`. -/
def addBlockDay (tzOff : Int) (block : AvailabilityBlock) (dates : IntervalMap)
    (u : Int) : IntervalMap :=
  let key := clockDay (localClock tzOff (recStart tzOff block u))
  match block.days with
  | some ds =>
    if weekdayOf key ∈ ds then
      pushAt dates key ⟨recStart tzOff block u, recEnd tzOff block u⟩
    else dates
  | none => dates

/-- The `workingDates` record:
`availability.filter((value) => typeof value.days !== "undefined").reduce(...)`
with the day-walk inside the reducer. -/
def workingDatesExp (tzOff : Int) (availability : List AvailabilityBlock)
    (dateFrom dateTo : Int) : IntervalMap :=
  (availability.filter (fun v => v.days.isSome)).foldl
    (fun dates block => (walkedDays dateFrom dateTo).foldl (addBlockDay tzOff block) dates)
    []

/-- Displayed wall clock of `dayjs.tz(d, timeZone).hour(t.getUTCHours())
.minute(t.getUTCMinutes())` for an override date value `d` and a stored time
value `t`. -/
def ovClock (tzOff d t : Int) : Int :=
  setClockMinute (setClockHour (localClock tzOff d) (clockHour t)) (clockMinute t)

/-- One iteration of the override reducer: build `start` and `end` from the
override's `date` and push them under `start.format("YYYY-MM-DD")`. -/
def addOverride (tzOff : Int) (dates : IntervalMap) (o : AvailabilityBlock) :
    IntervalMap :=
  match o.date with
  | some d =>
    pushAt dates (clockDay (ovClock tzOff d o.startTime))
      ⟨ovClock tzOff d o.startTime - tzOff * minuteMs,
       ovClock tzOff d o.endTime - tzOff * minuteMs⟩
  | none => dates

/-- The `dateOverrides` record:
`availability.filter((availability) => !!availability.date).reduce(...)`
(a `Date` object is always truthy, `null` is falsy). -/
def dateOverridesExp (tzOff : Int) (availability : List AvailabilityBlock) :
    IntervalMap :=
  (availability.filter (fun v => v.date.isSome)).foldl (addOverride tzOff) []

/-- `getAvailability`: merge `workingDates` and `dateOverrides` by object
spread and flatten the values. -/
def getAvailability (tzOff : Int) (availability : List AvailabilityBlock)
    (dateFrom dateTo : Int) : List Interval :=
  flattenRecord
    (mergeRecords (workingDatesExp tzOff availability dateFrom dateTo)
      (dateOverridesExp tzOff availability))

/-- Modelled from the spec: wall-clock anchoring of a date override, i.e. what
step 3 of the spec's algorithm prescribes — the override's stored civil date
(the UTC calendar date of its `date` value) is treated as already being local
midnight in the target zone, and `start`/`end` are that anchor plus the stored
hour and minute components directly.  Used only to compare the spec's words
with the code's override expansion. -/
def overrideWallClockSpec (tzOff : Int) (o : AvailabilityBlock) :
    Option (Int × Interval) :=
  o.date.map fun d =>
    let civil := d / dayMs
    let base := civil * dayMs - tzOff * minuteMs
    (civil,
      ⟨base + (clockHour o.startTime * 60 + clockMinute o.startTime) * minuteMs,
       base + (clockHour o.endTime * 60 + clockMinute o.endTime) * minuteMs⟩)

/-- Every interval stored in the record satisfies `Q`. -/
def allIv (Q : Interval → Prop) (m : IntervalMap) : Prop :=
  ∀ p ∈ m, ∀ i ∈ p.2, Q i

/-- Every interval of the record is stored under the key of its start's local
calendar date (both expansions key by `start.format("YYYY-MM-DD")`). -/
def goodMap (tzOff : Int) (m : IntervalMap) : Prop :=
  ∀ p ∈ m, ∀ i ∈ p.2, clockDay (localClock tzOff i.start) = p.1

/-! ### Arithmetic facts about clock components -/

theorem clockHour_nonneg (t : Int) : 0 ≤ clockHour t := by
  unfold clockHour dayMs hourMs; omega

theorem clockHour_lt (t : Int) : clockHour t < 24 := by
  unfold clockHour dayMs hourMs; omega

theorem clockMinute_nonneg (t : Int) : 0 ≤ clockMinute t := by
  unfold clockMinute hourMs minuteMs; omega

theorem clockMinute_lt (t : Int) : clockMinute t < 60 := by
  unfold clockMinute hourMs minuteMs; omega

theorem clockMinute_setClockHour (c h : Int) :
    clockMinute (setClockHour c h) = clockMinute c := by
  unfold clockMinute setClockHour clockHour dayMs hourMs minuteMs; omega

theorem clockHour_setClockHour (c h : Int) (h0 : 0 ≤ h) (h1 : h < 24) :
    clockHour (setClockHour c h) = h := by
  unfold setClockHour clockHour dayMs hourMs; omega

theorem clockDay_setClockHour (c h : Int) (h0 : 0 ≤ h) (h1 : h < 24) :
    clockDay (setClockHour c h) = clockDay c := by
  unfold clockDay setClockHour clockHour dayMs hourMs; omega

theorem clockHour_setClockMinute (c m : Int) (h0 : 0 ≤ m) (h1 : m < 60) :
    clockHour (setClockMinute c m) = clockHour c := by
  unfold clockHour setClockMinute clockMinute dayMs hourMs minuteMs; omega

theorem clockMinute_setClockMinute (c m : Int) (h0 : 0 ≤ m) (h1 : m < 60) :
    clockMinute (setClockMinute c m) = m := by
  unfold setClockMinute clockMinute hourMs minuteMs; omega

theorem clockDay_setClockMinute (c m : Int) (h0 : 0 ≤ m) (h1 : m < 60) :
    clockDay (setClockMinute c m) = clockDay c := by
  unfold clockDay setClockMinute clockMinute hourMs minuteMs dayMs; omega

/-! ### Association-list record lemmas -/

theorem lookupKey_pushAt_self (m : IntervalMap) (k : Int) (i : Interval) :
    lookupKey (pushAt m k i) k = some ((lookupKey m k).getD [] ++ [i]) := by
  induction m with
  | nil => simp [pushAt, lookupKey]
  | cons p rest ih =>
    by_cases hp : p.1 = k
    · subst hp
      simp [pushAt, lookupKey]
    · simp [pushAt, lookupKey, hp, ih]

theorem lookupKey_pushAt_ne (m : IntervalMap) (k : Int) (i : Interval)
    (k' : Int) (h : k' ≠ k) :
    lookupKey (pushAt m k i) k' = lookupKey m k' := by
  induction m with
  | nil => simp [pushAt, lookupKey, Ne.symm h]
  | cons p rest ih =>
    by_cases hp : p.1 = k
    · subst hp
      simp [pushAt, lookupKey, Ne.symm h]
    · simp only [pushAt, if_neg hp]
      by_cases hp' : p.1 = k'
      · simp [lookupKey, hp']
      · simp [lookupKey, hp', ih]

theorem lookupKey_isSome_iff (m : IntervalMap) (k : Int) :
    (lookupKey m k).isSome ↔ k ∈ keysOf m := by
  induction m with
  | nil => simp [lookupKey, keysOf]
  | cons p rest ih =>
    by_cases hp : p.1 = k
    · subst hp
      simp [lookupKey, keysOf]
    · have hp2 : ¬k = p.1 := fun hh => hp hh.symm
      simp [lookupKey, keysOf, hp, hp2, ih]

theorem lookupKey_eq_none_iff (m : IntervalMap) (k : Int) :
    lookupKey m k = none ↔ k ∉ keysOf m := by
  rw [← lookupKey_isSome_iff, Option.isSome_iff_ne_none]; tauto

theorem mem_keysOf_pushAt (m : IntervalMap) (k : Int) (i : Interval) (x : Int) :
    x ∈ keysOf (pushAt m k i) ↔ x ∈ keysOf m ∨ x = k := by
  induction m with
  | nil => simp [pushAt, keysOf]
  | cons p rest ih =>
    by_cases hp : p.1 = k
    · subst hp
      simp only [pushAt, eq_self_iff_true, if_true, keysOf, List.map_cons,
        List.mem_cons]
      tauto
    · simp only [pushAt, if_neg hp, keysOf, List.map_cons, List.mem_cons] at ih ⊢
      rw [ih]
      tauto

theorem nodup_keysOf_pushAt (m : IntervalMap) (k : Int) (i : Interval)
    (h : (keysOf m).Nodup) : (keysOf (pushAt m k i)).Nodup := by
  induction m with
  | nil => simp [pushAt, keysOf]
  | cons p rest ih =>
    simp only [keysOf, List.map_cons, List.nodup_cons] at h
    by_cases hp : p.1 = k
    · subst hp
      simp only [pushAt, eq_self_iff_true, if_true, keysOf, List.map_cons,
        List.nodup_cons]
      exact ⟨h.1, h.2⟩
    · simp only [pushAt, if_neg hp, keysOf, List.map_cons, List.nodup_cons]
      refine ⟨fun hmem => ?_, ih h.2⟩
      rcases (mem_keysOf_pushAt rest k i p.1).mp hmem with hm | hm
      · exact h.1 hm
      · exact hp hm

theorem lookupKey_some_mem (m : IntervalMap) (k : Int) (v : List Interval)
    (h : lookupKey m k = some v) : (k, v) ∈ m := by
  induction m with
  | nil => simp [lookupKey] at h
  | cons p rest ih =>
    by_cases hp : p.1 = k
    · subst hp
      simp only [lookupKey, eq_self_iff_true, if_true, Option.some.injEq] at h
      subst h
      exact List.mem_cons_self _ _
    · simp only [lookupKey, if_neg hp] at h
      exact List.mem_cons_of_mem _ (ih h)

theorem lookupKey_append (a b : IntervalMap) (k : Int) :
    lookupKey (a ++ b) k =
      match lookupKey a k with
      | some v => some v
      | none => lookupKey b k := by
  induction a with
  | nil => simp [lookupKey]
  | cons p rest ih =>
    by_cases hp : p.1 = k
    · simp [lookupKey, hp]
    · simp [lookupKey, hp, ih]

theorem foldl_induction {α β : Type} (step : β → α → β) (P : β → Prop) :
    ∀ (l : List α) (init : β), P init →
      (∀ acc a, a ∈ l → P acc → P (step acc a)) → P (l.foldl step init) := by
  intro l
  induction l with
  | nil => intro init h _; simpa using h
  | cons a rest ih =>
    intro init h hstep
    simp only [List.foldl_cons]
    exact ih _ (hstep init a (List.mem_cons_self _ _) h)
      (fun acc b hb hacc => hstep acc b (List.mem_cons_of_mem _ hb) hacc)

theorem allIv_pushAt {Q : Interval → Prop} {m : IntervalMap} {k : Int}
    {i : Interval} (hm : allIv Q m) (hi : Q i) : allIv Q (pushAt m k i) := by
  induction m with
  | nil =>
    intro p hp j hj
    simp only [pushAt, List.mem_singleton] at hp
    subst hp
    simp only [List.mem_singleton] at hj
    subst hj
    exact hi
  | cons q rest ih =>
    intro p hp j hj
    by_cases hq : q.1 = k
    · simp only [pushAt, if_pos hq] at hp
      rcases List.mem_cons.mp hp with h1 | h1
      · subst h1
        rcases List.mem_append.mp hj with h2 | h2
        · exact hm q (List.mem_cons_self _ _) j h2
        · simp only [List.mem_singleton] at h2
          subst h2
          exact hi
      · exact hm p (List.mem_cons_of_mem _ h1) j hj
    · simp only [pushAt, if_neg hq] at hp
      rcases List.mem_cons.mp hp with h1 | h1
      · subst h1
        exact hm p (List.mem_cons_self _ _) j hj
      · exact ih (fun r hr jj hjj => hm r (List.mem_cons_of_mem _ hr) jj hjj) p h1 j hj

theorem goodMap_pushAt {tzOff : Int} {m : IntervalMap} {k : Int} {i : Interval}
    (hm : goodMap tzOff m) (hi : clockDay (localClock tzOff i.start) = k) :
    goodMap tzOff (pushAt m k i) := by
  induction m with
  | nil =>
    intro p hp j hj
    simp only [pushAt, List.mem_singleton] at hp
    subst hp
    simp only [List.mem_singleton] at hj
    subst hj
    exact hi
  | cons q rest ih =>
    intro p hp j hj
    by_cases hq : q.1 = k
    · simp only [pushAt, if_pos hq] at hp
      rcases List.mem_cons.mp hp with h1 | h1
      · subst h1
        rcases List.mem_append.mp hj with h2 | h2
        · exact hm q (List.mem_cons_self _ _) j h2
        · simp only [List.mem_singleton] at h2
          subst h2
          simpa [hq] using hi
      · exact hm p (List.mem_cons_of_mem _ h1) j hj
    · simp only [pushAt, if_neg hq] at hp
      rcases List.mem_cons.mp hp with h1 | h1
      · subst h1
        exact hm p (List.mem_cons_self _ _) j hj
      · exact ih (fun r hr jj hjj => hm r (List.mem_cons_of_mem _ hr) jj hjj) p h1 j hj

theorem localClock_sub (tzOff x : Int) :
    localClock tzOff (x - tzOff * minuteMs) = x := by
  unfold localClock; ring

theorem goodMap_addBlockDay (tzOff : Int) (block : AvailabilityBlock)
    (dates : IntervalMap) (u : Int) (h : goodMap tzOff dates) :
    goodMap tzOff (addBlockDay tzOff block dates u) := by
  unfold addBlockDay
  cases block.days with
  | none => exact h
  | some ds =>
    dsimp only
    split
    · exact goodMap_pushAt h rfl
    · exact h

theorem goodMap_addOverride (tzOff : Int) (dates : IntervalMap)
    (o : AvailabilityBlock) (h : goodMap tzOff dates) :
    goodMap tzOff (addOverride tzOff dates o) := by
  unfold addOverride
  cases o.date with
  | none => exact h
  | some d =>
    dsimp only
    exact goodMap_pushAt h (by rw [localClock_sub])

theorem nodupKeys_addBlockDay (tzOff : Int) (block : AvailabilityBlock)
    (dates : IntervalMap) (u : Int) (h : (keysOf dates).Nodup) :
    (keysOf (addBlockDay tzOff block dates u)).Nodup := by
  unfold addBlockDay
  cases block.days with
  | none => exact h
  | some ds =>
    dsimp only
    split
    · exact nodup_keysOf_pushAt _ _ _ h
    · exact h

theorem nodupKeys_addOverride (tzOff : Int) (dates : IntervalMap)
    (o : AvailabilityBlock) (h : (keysOf dates).Nodup) :
    (keysOf (addOverride tzOff dates o)).Nodup := by
  unfold addOverride
  cases o.date with
  | none => exact h
  | some d => exact nodup_keysOf_pushAt _ _ _ h

theorem goodMap_workingDatesExp (tzOff : Int) (av : List AvailabilityBlock)
    (dateFrom dateTo : Int) :
    goodMap tzOff (workingDatesExp tzOff av dateFrom dateTo) := by
  unfold workingDatesExp
  refine foldl_induction _ (goodMap tzOff) _ _ (by intro p hp; simp at hp) ?_
  intro acc block _ hacc
  refine foldl_induction _ (goodMap tzOff) _ _ hacc ?_
  intro acc2 u _ hacc2
  exact goodMap_addBlockDay tzOff block acc2 u hacc2

theorem goodMap_dateOverridesExp (tzOff : Int) (av : List AvailabilityBlock) :
    goodMap tzOff (dateOverridesExp tzOff av) := by
  unfold dateOverridesExp
  refine foldl_induction _ (goodMap tzOff) _ _ (by intro p hp; simp at hp) ?_
  intro acc o _ hacc
  exact goodMap_addOverride tzOff acc o hacc

theorem nodupKeys_workingDatesExp (tzOff : Int) (av : List AvailabilityBlock)
    (dateFrom dateTo : Int) :
    (keysOf (workingDatesExp tzOff av dateFrom dateTo)).Nodup := by
  unfold workingDatesExp
  refine foldl_induction _ (fun m => (keysOf m).Nodup) _ _ (by simp [keysOf]) ?_
  intro acc block _ hacc
  refine foldl_induction _ (fun m => (keysOf m).Nodup) _ _ hacc ?_
  intro acc2 u _ hacc2
  exact nodupKeys_addBlockDay tzOff block acc2 u hacc2

theorem nodupKeys_dateOverridesExp (tzOff : Int) (av : List AvailabilityBlock) :
    (keysOf (dateOverridesExp tzOff av)).Nodup := by
  unfold dateOverridesExp
  refine foldl_induction _ (fun m => (keysOf m).Nodup) _ _ (by simp [keysOf]) ?_
  intro acc o _ hacc
  exact nodupKeys_addOverride tzOff acc o hacc

/-! ### Merge and flatten lemmas -/

theorem lookupKey_mapMerge (a b : IntervalMap) (k : Int) :
    lookupKey (a.map (fun p => (p.1, (lookupKey b p.1).getD p.2))) k
      = (lookupKey a k).map (fun v => (lookupKey b k).getD v) := by
  induction a with
  | nil => simp [lookupKey]
  | cons p rest ih =>
    by_cases hp : p.1 = k
    · subst hp
      simp [lookupKey]
    · simp [lookupKey, hp, ih]

theorem lookupKey_filter_of_none (a b : IntervalMap) (k : Int)
    (ha : lookupKey a k = none) :
    lookupKey (b.filter (fun p => (lookupKey a p.1).isNone)) k = lookupKey b k := by
  induction b with
  | nil => simp [lookupKey]
  | cons q rest ih =>
    by_cases hq : q.1 = k
    · subst hq
      simp [List.filter_cons, ha, lookupKey]
    · by_cases hpred : (lookupKey a q.1).isNone
      · simp [List.filter_cons, hpred, lookupKey, hq, ih]
      · simp [List.filter_cons, hpred, lookupKey, hq, ih]

theorem lookupKey_filter_of_some (a b : IntervalMap) (k : Int)
    (ha : (lookupKey a k).isSome) :
    lookupKey (b.filter (fun p => (lookupKey a p.1).isNone)) k = none := by
  induction b with
  | nil => simp [lookupKey]
  | cons q rest ih =>
    by_cases hq : q.1 = k
    · subst hq
      have hpred : (lookupKey a q.1).isNone = false := by
        cases h : lookupKey a q.1 with
        | none => rw [h] at ha; simp at ha
        | some v => simp
      simp [List.filter_cons, hpred, ih]
    · by_cases hpred : (lookupKey a q.1).isNone
      · simp [List.filter_cons, hpred, lookupKey, hq, ih]
      · simp [List.filter_cons, hpred, ih]

theorem lookupKey_mergeRecords_of_override (a b : IntervalMap) (k : Int)
    (hb : (lookupKey b k).isSome) :
    lookupKey (mergeRecords a b) k = lookupKey b k := by
  unfold mergeRecords
  rw [lookupKey_append]
  cases ha : lookupKey a k with
  | none =>
    rw [lookupKey_mapMerge, ha]
    simpa using lookupKey_filter_of_none a b k ha
  | some v =>
    rw [lookupKey_mapMerge, ha]
    obtain ⟨w, hw⟩ := Option.isSome_iff_exists.mp hb
    rw [hw]
    simp

theorem keysOf_mergeRecords (a b : IntervalMap) :
    keysOf (mergeRecords a b)
      = keysOf a ++ keysOf (b.filter (fun p => (lookupKey a p.1).isNone)) := by
  unfold mergeRecords keysOf
  rw [List.map_append, List.map_map]
  rfl

theorem nodup_keysOf_mergeRecords (a b : IntervalMap)
    (ha : (keysOf a).Nodup) (hb : (keysOf b).Nodup) :
    (keysOf (mergeRecords a b)).Nodup := by
  rw [keysOf_mergeRecords, List.nodup_append]
  refine ⟨ha, ?_, ?_⟩
  · exact hb.sublist ((List.filter_sublist b).map Prod.fst)
  · intro x hx hx2
    rcases List.mem_map.mp hx2 with ⟨q, hq, hq2⟩
    rcases List.mem_filter.mp hq with ⟨_, hpred⟩
    rw [hq2] at hpred
    have : lookupKey a x = none := by
      cases h : lookupKey a x with
      | none => rfl
      | some v => rw [h] at hpred; simp at hpred
    exact (lookupKey_eq_none_iff a x).mp this hx

theorem goodMap_mergeRecords {tzOff : Int} {a b : IntervalMap}
    (hga : goodMap tzOff a) (hgb : goodMap tzOff b) :
    goodMap tzOff (mergeRecords a b) := by
  intro p hp i hi
  unfold mergeRecords at hp
  rcases List.mem_append.mp hp with h | h
  · rcases List.mem_map.mp h with ⟨q, hq, hq2⟩
    subst hq2
    cases hbq : lookupKey b q.1 with
    | none =>
      rw [hbq] at hi
      exact hga q hq i hi
    | some v =>
      rw [hbq] at hi
      exact hgb _ (lookupKey_some_mem b q.1 v hbq) i hi
  · exact hgb p (List.mem_filter.mp h).1 i hi

theorem allIv_mergeRecords {Q : Interval → Prop} {a b : IntervalMap}
    (hga : allIv Q a) (hgb : allIv Q b) : allIv Q (mergeRecords a b) := by
  intro p hp i hi
  unfold mergeRecords at hp
  rcases List.mem_append.mp hp with h | h
  · rcases List.mem_map.mp h with ⟨q, hq, hq2⟩
    subst hq2
    cases hbq : lookupKey b q.1 with
    | none =>
      rw [hbq] at hi
      exact hga q hq i hi
    | some v =>
      rw [hbq] at hi
      exact hgb _ (lookupKey_some_mem b q.1 v hbq) i hi
  · exact hgb p (List.mem_filter.mp h).1 i hi

theorem mem_flattenRecord (m : IntervalMap) (i : Interval) :
    i ∈ flattenRecord m ↔ ∃ p ∈ m, i ∈ p.2 := by
  unfold flattenRecord
  rw [List.mem_flatten]
  constructor
  · rintro ⟨l, hl, hil⟩
    rcases List.mem_map.mp hl with ⟨p, hp, rfl⟩
    exact ⟨p, hp, hil⟩
  · rintro ⟨p, hp, hip⟩
    exact ⟨p.2, List.mem_map_of_mem _ hp, hip⟩

theorem filter_flattenRecord (tzOff k : Int) :
    ∀ (m : IntervalMap), goodMap tzOff m → (keysOf m).Nodup →
      (flattenRecord m).filter
          (fun i => decide (clockDay (localClock tzOff i.start) = k))
        = (lookupKey m k).getD [] := by
  intro m
  induction m with
  | nil => intro _ _; simp [flattenRecord, lookupKey]
  | cons p rest ih =>
    intro hg hn
    simp only [keysOf, List.map_cons, List.nodup_cons] at hn
    have hg_rest : goodMap tzOff rest :=
      fun q hq => hg q (List.mem_cons_of_mem _ hq)
    have ihr := ih hg_rest hn.2
    have hflat : flattenRecord (p :: rest) = p.2 ++ flattenRecord rest := by
      simp [flattenRecord]
    rw [hflat, List.filter_append, ihr]
    by_cases hp : p.1 = k
    · subst hp
      have h1 : p.2.filter
          (fun i => decide (clockDay (localClock tzOff i.start) = p.1)) = p.2 := by
        refine List.filter_eq_self.mpr (fun i hi => ?_)
        simp [hg p (List.mem_cons_self _ _) i hi]
      have h2 : lookupKey rest p.1 = none :=
        (lookupKey_eq_none_iff _ _).mpr hn.1
      rw [h1, h2]
      simp [lookupKey]
    · have h1 : p.2.filter
          (fun i => decide (clockDay (localClock tzOff i.start) = k)) = [] := by
        refine List.filter_eq_nil_iff.mpr (fun i hi => ?_)
        simp [hg p (List.mem_cons_self _ _) i hi, hp]
      rw [h1]
      simp [lookupKey, hp]

/-! ### Helper lemmas for the claim theorems -/

theorem mergeRecords_nil_left (b : IntervalMap) : mergeRecords [] b = b := by
  unfold mergeRecords
  simp [lookupKey]

theorem mergeRecords_nil_right (a : IntervalMap) : mergeRecords a [] = a := by
  unfold mergeRecords
  simp [lookupKey]

theorem walkedDays_eq_nil (dateFrom dateTo : Int)
    (h : dateTo ≤ dayMs * (dateFrom / dayMs)) :
    walkedDays dateFrom dateTo = [] := by
  have hc : walkCount dateFrom dateTo = 0 := by
    unfold walkCount dayMs
    unfold dayMs at h
    omega
  unfold walkedDays
  rw [hc]
  rfl

theorem workingDatesExp_eq_nil (tzOff : Int) (av : List AvailabilityBlock)
    (dateFrom dateTo : Int) (h : dateTo ≤ dayMs * (dateFrom / dayMs)) :
    workingDatesExp tzOff av dateFrom dateTo = [] := by
  unfold workingDatesExp
  rw [walkedDays_eq_nil dateFrom dateTo h]
  simp only [List.foldl_nil]
  induction (av.filter (fun v => v.days.isSome)) with
  | nil => rfl
  | cons r rest ih => exact ih

theorem walkedDays_day_aligned (dateFrom dateTo u : Int)
    (h : u ∈ walkedDays dateFrom dateTo) : dayMs ∣ u := by
  unfold walkedDays at h
  rcases List.mem_map.mp h with ⟨n, _, rfl⟩
  exact ⟨dateFrom / dayMs + n, by ring⟩

theorem clock_of_aligned_add (u t : Int) (hu : dayMs ∣ u) :
    clockHour (u + (clockHour t * 60 + clockMinute t) * minuteMs) = clockHour t ∧
    clockMinute (u + (clockHour t * 60 + clockMinute t) * minuteMs) = clockMinute t := by
  obtain ⟨q, rfl⟩ := hu
  unfold clockHour clockMinute dayMs hourMs minuteMs
  constructor <;> omega

theorem localClock_recStart (tzOff : Int) (block : AvailabilityBlock) (u : Int) :
    localClock tzOff (recStart tzOff block u)
      = u + (clockHour block.startTime * 60 + clockMinute block.startTime) * minuteMs := by
  unfold localClock recStart
  ring

theorem ovClock_eq (tzOff d t : Int) :
    ovClock tzOff d t
      = localClock tzOff d - clockHour (localClock tzOff d) * hourMs
          - clockMinute (localClock tzOff d) * minuteMs
          + clockHour t * hourMs + clockMinute t * minuteMs := by
  unfold ovClock setClockMinute
  rw [clockMinute_setClockHour]
  unfold setClockHour
  ring

theorem clockDay_ovClock (tzOff d t : Int) :
    clockDay (ovClock tzOff d t) = clockDay (localClock tzOff d) := by
  unfold ovClock
  rw [clockDay_setClockMinute _ _ (clockMinute_nonneg t) (clockMinute_lt t),
    clockDay_setClockHour _ _ (clockHour_nonneg t) (clockHour_lt t)]

theorem clockHour_ovClock (tzOff d t : Int) :
    clockHour (ovClock tzOff d t) = clockHour t := by
  unfold ovClock
  rw [clockHour_setClockMinute _ _ (clockMinute_nonneg t) (clockMinute_lt t),
    clockHour_setClockHour _ _ (clockHour_nonneg t) (clockHour_lt t)]

theorem clockMinute_ovClock (tzOff d t : Int) :
    clockMinute (ovClock tzOff d t) = clockMinute t := by
  unfold ovClock
  rw [clockMinute_setClockMinute _ _ (clockMinute_nonneg t) (clockMinute_lt t)]

theorem addBlockDay_congr (tzOff : Int) (r₁ r₂ : AvailabilityBlock)
    (hdays : r₁.days = r₂.days)
    (h1 : clockHour r₁.startTime = clockHour r₂.startTime)
    (h2 : clockMinute r₁.startTime = clockMinute r₂.startTime)
    (h3 : clockHour r₁.endTime = clockHour r₂.endTime)
    (h4 : clockMinute r₁.endTime = clockMinute r₂.endTime) :
    addBlockDay tzOff r₁ = addBlockDay tzOff r₂ := by
  funext dates u
  unfold addBlockDay recStart recEnd
  rw [hdays, h1, h2, h3, h4]

theorem addOverride_congr (tzOff : Int) (dates : IntervalMap)
    (r₁ r₂ : AvailabilityBlock) (hdate : r₁.date = r₂.date)
    (h1 : clockHour r₁.startTime = clockHour r₂.startTime)
    (h2 : clockMinute r₁.startTime = clockMinute r₂.startTime)
    (h3 : clockHour r₁.endTime = clockHour r₂.endTime)
    (h4 : clockMinute r₁.endTime = clockMinute r₂.endTime) :
    addOverride tzOff dates r₁ = addOverride tzOff dates r₂ := by
  unfold addOverride ovClock
  rw [hdate, h1, h2, h3, h4]

theorem forall₂_filter_congr {α : Type} {R : α → α → Prop} {p : α → Bool}
    (compat : ∀ a b, R a b → p a = p b) :
    ∀ {l₁ l₂ : List α}, List.Forall₂ R l₁ l₂ →
      List.Forall₂ R (l₁.filter p) (l₂.filter p) := by
  intro l₁ l₂ h
  induction h with
  | nil => exact List.Forall₂.nil
  | @cons a b la lb hab hrest ih =>
    by_cases hp : p a
    · have hpb : p b = true := by rw [← compat _ _ hab]; exact hp
      simp only [List.filter_cons, hp, hpb, if_true]
      exact List.Forall₂.cons hab ih
    · have hpb : p b = false := by rw [← compat _ _ hab]; simpa using hp
      simp only [List.filter_cons, hpb, if_false]
      simpa [hp] using ih

theorem foldl_congr_forall₂ {α β : Type} {R : α → α → Prop} {f g : β → α → β}
    (hfg : ∀ acc a b, R a b → f acc a = g acc b) :
    ∀ {l₁ l₂ : List α}, List.Forall₂ R l₁ l₂ →
      ∀ acc, l₁.foldl f acc = l₂.foldl g acc := by
  intro l₁ l₂ h
  induction h with
  | nil => intro acc; rfl
  | @cons a b la lb hab hrest ih =>
    intro acc
    simp only [List.foldl_cons]
    rw [hfg acc _ _ hab]
    exact ih _

/-! ### Claim theorems -/

/-- C1: for every date key produced both by the recurring expansion and the
override expansion, the flattened output contains exactly the override
expansion's interval list for that date — the spread merge replaces the whole
key, so none of the recurring-expansion intervals for that date appear. -/
theorem c1_override_precedence (tzOff : Int) (av : List AvailabilityBlock)
    (dateFrom dateTo k : Int)
    (_hw : k ∈ keysOf (workingDatesExp tzOff av dateFrom dateTo))
    (ho : k ∈ keysOf (dateOverridesExp tzOff av)) :
    (getAvailability tzOff av dateFrom dateTo).filter
        (fun i => decide (clockDay (localClock tzOff i.start) = k))
      = (lookupKey (dateOverridesExp tzOff av) k).getD [] := by
  unfold getAvailability
  rw [filter_flattenRecord tzOff k _
    (goodMap_mergeRecords (goodMap_workingDatesExp tzOff av dateFrom dateTo)
      (goodMap_dateOverridesExp tzOff av))
    (nodup_keysOf_mergeRecords _ _
      (nodupKeys_workingDatesExp tzOff av dateFrom dateTo)
      (nodupKeys_dateOverridesExp tzOff av))]
  rw [lookupKey_mergeRecords_of_override _ _ _
    ((lookupKey_isSome_iff _ _).mpr ho)]

theorem c1_override_precedence_witness :
    ((0 : Int) ∈ keysOf (workingDatesExp 0
        [⟨32400000, 36000000, none, some [4]⟩, ⟨39600000, 43200000, some 0, none⟩]
        0 86400000) ∧
      (0 : Int) ∈ keysOf (dateOverridesExp 0
        [⟨32400000, 36000000, none, some [4]⟩, ⟨39600000, 43200000, some 0, none⟩])) ∧
    (getAvailability 0
        [⟨32400000, 36000000, none, some [4]⟩, ⟨39600000, 43200000, some 0, none⟩]
        0 86400000).filter
        (fun i => decide (clockDay (localClock 0 i.start) = 0))
      = (lookupKey (dateOverridesExp 0
          [⟨32400000, 36000000, none, some [4]⟩, ⟨39600000, 43200000, some 0, none⟩])
          0).getD [] :=
  ⟨⟨by decide, by decide⟩,
    c1_override_precedence 0
      [⟨32400000, 36000000, none, some [4]⟩, ⟨39600000, 43200000, some 0, none⟩]
      0 86400000 0 (by decide) (by decide)⟩

/-- C2 counterexample: with a −300 minute zone offset (New York standard time)
and an override whose `date` is 1970-01-01T00:00Z, the code's override
expansion keys the interval under 1969-12-31 (epoch day −1) and its start is
09:00 on that previous day, whereas the spec's wall-clock anchoring of the
stored civil date prescribes the key 1970-01-01 (epoch day 0).  The override's
`date` is therefore converted through the UTC offset, not anchored the same
wall-clock way as recurring days. -/
theorem c2_counterexample :
    dateOverridesExp (-300) [⟨32400000, 36000000, some 0, none⟩]
      ≠ ((overrideWallClockSpec (-300) ⟨32400000, 36000000, some 0, none⟩).map
          (fun kv => [(kv.1, [kv.2])])).getD [] ∧
    keysOf (dateOverridesExp (-300) [⟨32400000, 36000000, some 0, none⟩]) = [-1] ∧
    (overrideWallClockSpec (-300) ⟨32400000, 36000000, some 0, none⟩).map Prod.fst
      = some 0 := by
  decide

/-- C2 (amended): an override rule's `date` is converted into the target zone
through the UTC offset (`dayjs.tz(date, timeZone)` without `keepLocalTime`),
and `start`/`end` are obtained by setting the hour and minute components on
that converted local time; one override rule still produces exactly one keyed
interval entry, keyed by the converted (not the stored) local calendar
date. -/
theorem c2_override_offset_conversion (tzOff : Int) (o : AvailabilityBlock)
    (d : Int) (hd : o.date = some d) :
    ∃ i : Interval,
      dateOverridesExp tzOff [o] = [(clockDay (localClock tzOff d), [i])] ∧
      clockHour (localClock tzOff i.start) = clockHour o.startTime ∧
      clockMinute (localClock tzOff i.start) = clockMinute o.startTime ∧
      clockHour (localClock tzOff i.«end») = clockHour o.endTime ∧
      clockMinute (localClock tzOff i.«end») = clockMinute o.endTime := by
  refine ⟨⟨ovClock tzOff d o.startTime - tzOff * minuteMs,
    ovClock tzOff d o.endTime - tzOff * minuteMs⟩, ?_, ?_, ?_, ?_, ?_⟩
  · unfold dateOverridesExp
    have hfilter : [o].filter (fun v => v.date.isSome) = [o] := by
      simp [List.filter_cons, hd]
    rw [hfilter]
    simp only [List.foldl_cons, List.foldl_nil]
    unfold addOverride
    rw [hd]
    simp only [pushAt, clockDay_ovClock]
  · rw [localClock_sub, clockHour_ovClock]
  · rw [localClock_sub, clockMinute_ovClock]
  · rw [localClock_sub, clockHour_ovClock]
  · rw [localClock_sub, clockMinute_ovClock]

theorem c2_override_offset_conversion_witness :
    ((⟨32400000, 36000000, some 0, none⟩ : AvailabilityBlock).date = some 0) ∧
    (∃ i : Interval,
      dateOverridesExp (-300) [⟨32400000, 36000000, some 0, none⟩]
        = [(clockDay (localClock (-300) 0), [i])] ∧
      clockHour (localClock (-300) i.start)
        = clockHour (⟨32400000, 36000000, some 0, none⟩ : AvailabilityBlock).startTime ∧
      clockMinute (localClock (-300) i.start)
        = clockMinute (⟨32400000, 36000000, some 0, none⟩ : AvailabilityBlock).startTime ∧
      clockHour (localClock (-300) i.«end»)
        = clockHour (⟨32400000, 36000000, some 0, none⟩ : AvailabilityBlock).endTime ∧
      clockMinute (localClock (-300) i.«end»)
        = clockMinute (⟨32400000, 36000000, some 0, none⟩ : AvailabilityBlock).endTime) :=
  ⟨rfl, c2_override_offset_conversion (-300) ⟨32400000, 36000000, some 0, none⟩ 0 rfl⟩

/-- C3 counterexample: `dateFrom` = 1970-01-01T12:00Z, `dateTo` =
1970-01-01T06:00Z satisfies `dateTo ≤ dateFrom`, yet the day-walk truncates
`dateFrom` down to midnight, which is still before `dateTo`, so the recurring
rule (a Thursday, weekday 4) produces an interval and the result is not the
override-only set. -/
theorem c3_counterexample :
    ((21600000 : Int) ≤ 43200000) ∧
    getAvailability 0 [⟨32400000, 36000000, none, some [4]⟩] 43200000 21600000
      ≠ flattenRecord (dateOverridesExp 0 [⟨32400000, 36000000, none, some [4]⟩]) := by
  decide

/-- C3 (amended): if `dateTo` is at or before the UTC midnight beginning
`dateFrom`'s calendar day (the truncation the loop starts from), the day-walk
runs zero iterations and the result is exactly the override-only set.  (For
`dateTo ≤ dateFrom` but after that midnight the walk still runs, as the
counterexample shows.) -/
theorem c3_no_walk_override_only (tzOff : Int) (av : List AvailabilityBlock)
    (dateFrom dateTo : Int) (h : dateTo ≤ dayMs * (dateFrom / dayMs)) :
    getAvailability tzOff av dateFrom dateTo
      = flattenRecord (dateOverridesExp tzOff av) := by
  unfold getAvailability
  rw [workingDatesExp_eq_nil tzOff av dateFrom dateTo h, mergeRecords_nil_left]

theorem c3_no_walk_override_only_witness :
    ((0 : Int) ≤ dayMs * ((43200000 : Int) / dayMs)) ∧
    getAvailability 0 [⟨32400000, 36000000, some 0, none⟩] 43200000 0
      = flattenRecord (dateOverridesExp 0 [⟨32400000, 36000000, some 0, none⟩]) :=
  ⟨by decide, c3_no_walk_override_only 0 [⟨32400000, 36000000, some 0, none⟩]
    43200000 0 (by decide)⟩

/-- C4: for every recurring rule and every walked day that passes the weekday
filter, the produced interval's start displays, in the target zone, exactly
the rule's `startTime` hour and minute — wall-clock anchoring, for every zone
offset (no double conversion through UTC). -/
theorem c4_wall_clock_anchoring (tzOff dateFrom dateTo : Int)
    (block : AvailabilityBlock) (u : Int) (ds : List Int)
    (hu : u ∈ walkedDays dateFrom dateTo)
    (_hds : block.days = some ds)
    (_hwd : weekdayOf (clockDay (localClock tzOff (recStart tzOff block u))) ∈ ds) :
    clockHour (localClock tzOff (recStart tzOff block u))
        = clockHour block.startTime ∧
    clockMinute (localClock tzOff (recStart tzOff block u))
        = clockMinute block.startTime := by
  rw [localClock_recStart]
  exact clock_of_aligned_add u block.startTime
    (walkedDays_day_aligned dateFrom dateTo u hu)

theorem c4_wall_clock_anchoring_witness :
    ((0 : Int) ∈ walkedDays 0 86400000 ∧
      (⟨32400000, 36000000, none, some [4]⟩ : AvailabilityBlock).days = some [4] ∧
      weekdayOf (clockDay (localClock (-300)
        (recStart (-300) ⟨32400000, 36000000, none, some [4]⟩ 0))) ∈ [4]) ∧
    (clockHour (localClock (-300)
        (recStart (-300) ⟨32400000, 36000000, none, some [4]⟩ 0))
      = clockHour (⟨32400000, 36000000, none, some [4]⟩ : AvailabilityBlock).startTime ∧
     clockMinute (localClock (-300)
        (recStart (-300) ⟨32400000, 36000000, none, some [4]⟩ 0))
      = clockMinute (⟨32400000, 36000000, none, some [4]⟩ : AvailabilityBlock).startTime) :=
  ⟨⟨by decide, rfl, by decide⟩,
    c4_wall_clock_anchoring (-300) 0 86400000 ⟨32400000, 36000000, none, some [4]⟩
      0 [4] (by decide) rfl (by decide)⟩

/-- C5 counterexample: a recurring rule whose stored `endTime` clock (09:00)
is before its `startTime` clock (10:00) produces an interval with
`end < start`; nothing in the code validates the order, so not every returned
interval satisfies `start < end`. -/
theorem c5_counterexample :
    getAvailability 0 [⟨36000000, 32400000, none, some [4]⟩] 0 86400000
      = [⟨36000000, 32400000⟩] ∧
    ¬ ((36000000 : Int) < 32400000) := by
  decide

/-- C5 (amended): provided every rule's stored start clock (hour·60 + minute)
is strictly before its end clock, every interval in the returned array
satisfies `start < end`. -/
theorem c5_positive_intervals (tzOff : Int) (av : List AvailabilityBlock)
    (dateFrom dateTo : Int)
    (h : ∀ r ∈ av, clockHour r.startTime * 60 + clockMinute r.startTime
        < clockHour r.endTime * 60 + clockMinute r.endTime) :
    ∀ i ∈ getAvailability tzOff av dateFrom dateTo, i.start < i.«end» := by
  intro i hi
  unfold getAvailability at hi
  rw [mem_flattenRecord] at hi
  obtain ⟨p, hp, hip⟩ := hi
  have hw : allIv (fun j => j.start < j.«end»)
      (workingDatesExp tzOff av dateFrom dateTo) := by
    unfold workingDatesExp
    refine foldl_induction _ (allIv _) _ _ (by intro q hq; simp at hq) ?_
    intro acc block hblock hacc
    have hb : block ∈ av := (List.mem_filter.mp hblock).1
    refine foldl_induction _ (allIv _) _ _ hacc ?_
    intro acc2 u _ hacc2
    unfold addBlockDay
    cases block.days with
    | none => exact hacc2
    | some ds =>
      dsimp only
      split
      · refine allIv_pushAt hacc2 ?_
        show recStart tzOff block u < recEnd tzOff block u
        have hlt := h block hb
        unfold recStart recEnd minuteMs at *
        omega
      · exact hacc2
  have ho : allIv (fun j => j.start < j.«end») (dateOverridesExp tzOff av) := by
    unfold dateOverridesExp
    refine foldl_induction _ (allIv _) _ _ (by intro q hq; simp at hq) ?_
    intro acc o hoo hacc
    have hb : o ∈ av := (List.mem_filter.mp hoo).1
    unfold addOverride
    cases o.date with
    | none => exact hacc
    | some d =>
      dsimp only
      refine allIv_pushAt hacc ?_
      show ovClock tzOff d o.startTime - tzOff * minuteMs
          < ovClock tzOff d o.endTime - tzOff * minuteMs
      have hlt := h o hb
      rw [ovClock_eq, ovClock_eq]
      unfold hourMs minuteMs at *
      omega
  exact allIv_mergeRecords hw ho p hp i hip

theorem c5_positive_intervals_witness :
    (∀ r ∈ [(⟨32400000, 36000000, none, some [4]⟩ : AvailabilityBlock),
        ⟨39600000, 43200000, some 0, none⟩],
      clockHour r.startTime * 60 + clockMinute r.startTime
        < clockHour r.endTime * 60 + clockMinute r.endTime) ∧
    (∀ i ∈ getAvailability 0
        [⟨32400000, 36000000, none, some [4]⟩, ⟨39600000, 43200000, some 0, none⟩]
        0 86400000, i.start < i.«end») :=
  ⟨by decide, c5_positive_intervals 0
    [⟨32400000, 36000000, none, some [4]⟩, ⟨39600000, 43200000, some 0, none⟩]
    0 86400000 (by decide)⟩

/-- C6 counterexample: a single rule carrying both a `date` and a non-empty
`days` set passes both filters; over a two-day range it contributes a
recurring interval on the second day in addition to its override entry, so the
output is not the override-only set — presence of `date` does not exclude a
rule from the recurring day-walk. -/
theorem c6_counterexample :
    getAvailability 0 [⟨32400000, 36000000, some 0, some [0, 1, 2, 3, 4, 5, 6]⟩]
        0 172800000
      ≠ flattenRecord (dateOverridesExp 0
          [⟨32400000, 36000000, some 0, some [0, 1, 2, 3, 4, 5, 6]⟩]) := by
  decide

/-- C6 (amended): the two classifications are independent rather than a
partition — a rule enters the recurring day-walk iff `days` is present and the
override expansion iff `date` is present (a rule with both contributes through
both); hence a rule without `days` contributes only through the override
expansion, and a rule without `date` only through the recurring expansion. -/
theorem c6_classification_independent (tzOff dateFrom dateTo : Int)
    (r : AvailabilityBlock) :
    (r.days = none →
      getAvailability tzOff [r] dateFrom dateTo
        = flattenRecord (dateOverridesExp tzOff [r])) ∧
    (r.date = none →
      getAvailability tzOff [r] dateFrom dateTo
        = flattenRecord (workingDatesExp tzOff [r] dateFrom dateTo)) := by
  constructor
  · intro hd
    unfold getAvailability
    have hwd : workingDatesExp tzOff [r] dateFrom dateTo = [] := by
      unfold workingDatesExp
      simp [List.filter_cons, hd]
    rw [hwd, mergeRecords_nil_left]
  · intro hd
    unfold getAvailability
    have hov : dateOverridesExp tzOff [r] = [] := by
      unfold dateOverridesExp
      simp [List.filter_cons, hd]
    rw [hov, mergeRecords_nil_right]

theorem c6_classification_independent_witness :
    (((⟨32400000, 36000000, none, none⟩ : AvailabilityBlock).days = none ∧
      getAvailability 0 [⟨32400000, 36000000, none, none⟩] 0 86400000
        = flattenRecord (dateOverridesExp 0 [⟨32400000, 36000000, none, none⟩]))) ∧
    (((⟨32400000, 36000000, none, none⟩ : AvailabilityBlock).date = none ∧
      getAvailability 0 [⟨32400000, 36000000, none, none⟩] 0 86400000
        = flattenRecord (workingDatesExp 0 [⟨32400000, 36000000, none, none⟩]
            0 86400000))) :=
  ⟨⟨rfl, (c6_classification_independent 0 0 86400000
      ⟨32400000, 36000000, none, none⟩).1 rfl⟩,
    ⟨rfl, (c6_classification_independent 0 0 86400000
      ⟨32400000, 36000000, none, none⟩).2 rfl⟩⟩

/-- C7: the day-walk visits exactly the whole-day steps from `dateFrom`
truncated to its UTC calendar day that are strictly before `dateTo`'s instant;
in particular for dateFrom = 2024-01-01T00:00Z and dateTo = 2024-01-04T00:00Z
exactly the three days 2024-01-01, 2024-01-02, 2024-01-03 are walked and
2024-01-04 is not. -/
theorem c7_day_walk_exclusive :
    (∀ dateFrom dateTo d : Int,
      d ∈ walkedDays dateFrom dateTo ↔
        ∃ n : Nat, d = dayMs * (dateFrom / dayMs) + dayMs * n ∧ d < dateTo) ∧
    walkedDays (dayMs * daysFromCivil 2024 1 1) (dayMs * daysFromCivil 2024 1 4)
      = [dayMs * daysFromCivil 2024 1 1, dayMs * daysFromCivil 2024 1 2,
         dayMs * daysFromCivil 2024 1 3] ∧
    dayMs * daysFromCivil 2024 1 4 ∉
      walkedDays (dayMs * daysFromCivil 2024 1 1) (dayMs * daysFromCivil 2024 1 4) := by
  refine ⟨?_, by decide, by decide⟩
  intro dateFrom dateTo d
  unfold walkedDays walkCount dayMs
  constructor
  · intro hmem
    obtain ⟨a, ha, hfa⟩ := List.mem_map.mp hmem
    rw [List.mem_range] at ha
    subst hfa
    exact ⟨a, rfl, by omega⟩
  · rintro ⟨n, hd, hlt⟩
    subst hd
    exact List.mem_map.mpr ⟨n, List.mem_range.mpr (by omega), rfl⟩

/-- C8: two calls whose availability lists agree pairwise on `date`, `days`,
and the UTC hour and minute of `startTime` and `endTime` (in particular, lists
that differ only in the calendar-date components of `startTime`/`endTime`)
return equal outputs: the date components of the stored time values are
ignored for every rule. -/
theorem c8_date_components_ignored (tzOff dateFrom dateTo : Int)
    (av₁ av₂ : List AvailabilityBlock)
    (h : List.Forall₂ (fun r₁ r₂ =>
        r₁.date = r₂.date ∧ r₁.days = r₂.days ∧
        clockHour r₁.startTime = clockHour r₂.startTime ∧
        clockMinute r₁.startTime = clockMinute r₂.startTime ∧
        clockHour r₁.endTime = clockHour r₂.endTime ∧
        clockMinute r₁.endTime = clockMinute r₂.endTime) av₁ av₂) :
    getAvailability tzOff av₁ dateFrom dateTo
      = getAvailability tzOff av₂ dateFrom dateTo := by
  have hW : workingDatesExp tzOff av₁ dateFrom dateTo
      = workingDatesExp tzOff av₂ dateFrom dateTo := by
    unfold workingDatesExp
    exact foldl_congr_forall₂
      (fun acc a b hab => by
        rw [addBlockDay_congr tzOff a b hab.2.1 hab.2.2.1 hab.2.2.2.1
          hab.2.2.2.2.1 hab.2.2.2.2.2])
      (forall₂_filter_congr (fun a b hab => by rw [hab.2.1]) h) []
  have hO : dateOverridesExp tzOff av₁ = dateOverridesExp tzOff av₂ := by
    unfold dateOverridesExp
    exact foldl_congr_forall₂
      (fun acc a b hab => addOverride_congr tzOff acc a b hab.1 hab.2.2.1
        hab.2.2.2.1 hab.2.2.2.2.1 hab.2.2.2.2.2)
      (forall₂_filter_congr (fun a b hab => by rw [hab.1]) h) []
  unfold getAvailability
  rw [hW, hO]

theorem c8_date_components_ignored_witness :
    List.Forall₂ (fun (r₁ r₂ : AvailabilityBlock) =>
        r₁.date = r₂.date ∧ r₁.days = r₂.days ∧
        clockHour r₁.startTime = clockHour r₂.startTime ∧
        clockMinute r₁.startTime = clockMinute r₂.startTime ∧
        clockHour r₁.endTime = clockHour r₂.endTime ∧
        clockMinute r₁.endTime = clockMinute r₂.endTime)
      [⟨32400000, 36000000, none, some [4]⟩]
      [⟨32400000 + 86400000 * 365, 36000000 + 86400000 * 365, none, some [4]⟩] ∧
    getAvailability 0 [⟨32400000, 36000000, none, some [4]⟩] 0 86400000
      = getAvailability 0
          [⟨32400000 + 86400000 * 365, 36000000 + 86400000 * 365, none, some [4]⟩]
          0 86400000 :=
  ⟨List.Forall₂.cons (by refine ⟨rfl, rfl, ?_, ?_, ?_, ?_⟩ <;> decide)
      List.Forall₂.nil,
    c8_date_components_ignored 0 0 86400000
      [⟨32400000, 36000000, none, some [4]⟩]
      [⟨32400000 + 86400000 * 365, 36000000 + 86400000 * 365, none, some [4]⟩]
      (List.Forall₂.cons (by refine ⟨rfl, rfl, ?_, ?_, ?_, ?_⟩ <;> decide)
        List.Forall₂.nil)⟩

/-- C10: every interval produced by the override expansion comes from some
override rule whose `date` has the same sub-minute residue as the interval's
start and end: `.hour()`/`.minute()` only overwrite the hour and minute
components, so seconds and milliseconds of the override's `date` survive, and
the start is minute-aligned exactly when the `date` value is. -/
theorem c10_override_subminute (tzOff : Int) (av : List AvailabilityBlock)
    (p : Int × List Interval) (i : Interval)
    (hp : p ∈ dateOverridesExp tzOff av) (hi : i ∈ p.2) :
    ∃ o ∈ av, ∃ d, o.date = some d ∧
      i.start % minuteMs = d % minuteMs ∧
      i.«end» % minuteMs = d % minuteMs ∧
      (i.start % minuteMs = 0 ↔ d % minuteMs = 0) := by
  have hall : allIv (fun j => ∃ o ∈ av, ∃ d, o.date = some d ∧
      j.start % minuteMs = d % minuteMs ∧
      j.«end» % minuteMs = d % minuteMs ∧
      (j.start % minuteMs = 0 ↔ d % minuteMs = 0))
      (dateOverridesExp tzOff av) := by
    unfold dateOverridesExp
    refine foldl_induction _ (allIv _) _ _ (by intro q hq; simp at hq) ?_
    intro acc o hoo hacc
    have hb : o ∈ av := (List.mem_filter.mp hoo).1
    unfold addOverride
    cases hd : o.date with
    | none => exact hacc
    | some d =>
      dsimp only
      refine allIv_pushAt hacc ?_
      have h1 : (ovClock tzOff d o.startTime - tzOff * minuteMs) % minuteMs
          = d % minuteMs := by
        rw [ovClock_eq]
        unfold localClock hourMs minuteMs
        omega
      have h2 : (ovClock tzOff d o.endTime - tzOff * minuteMs) % minuteMs
          = d % minuteMs := by
        rw [ovClock_eq]
        unfold localClock hourMs minuteMs
        omega
      exact ⟨o, hb, d, hd, h1, h2, by rw [h1]⟩
  exact hall p hp i hi

theorem c10_override_subminute_witness :
    (((0 : Int), [(⟨32412345, 36012345⟩ : Interval)])
        ∈ dateOverridesExp 0 [⟨32400000, 36000000, some 12345, none⟩] ∧
      (⟨32412345, 36012345⟩ : Interval) ∈ [(⟨32412345, 36012345⟩ : Interval)]) ∧
    (∃ o ∈ [(⟨32400000, 36000000, some 12345, none⟩ : AvailabilityBlock)],
      ∃ d, o.date = some d ∧
        (32412345 : Int) % minuteMs = d % minuteMs ∧
        (36012345 : Int) % minuteMs = d % minuteMs ∧
        ((32412345 : Int) % minuteMs = 0 ↔ d % minuteMs = 0)) :=
  ⟨⟨by decide, by decide⟩,
    c10_override_subminute 0 [⟨32400000, 36000000, some 12345, none⟩]
      (0, [⟨32412345, 36012345⟩]) ⟨32412345, 36012345⟩ (by decide) (by decide)⟩

end CalAvail
